import Mathlib

/-!
Verification development for the http-proxy-to-tun networking core.

Each definition is a shallow embedding of a function of the Rust source
tree (crate paths are given in the doc comments).  Machine integers are
modelled as `Nat` with explicit truncation where overflow matters;
fallible code returns `Except`/`Option`; stateful loops become explicit
state-passing step functions.
-/

namespace ProxyVpn

/-- Model of `std::net::IpAddr`: an IPv4 address is kept as its four
octets, an IPv6 address is kept abstractly as its 128-bit value. -/
inductive Ip where
  | v4 : Nat → Nat → Nat → Nat → Ip
  | v6 : Nat → Ip
deriving DecidableEq, Repr

/-- Model of `IpAddr::is_ipv4`. -/
def Ip.is_ipv4 : Ip → Bool
  | .v4 _ _ _ _ => true
  | .v6 _ => false

/-- Model of `proxyvpn_util::dns::is_loopback` (src/crates/util/src/dns.rs):
IPv4 loopback is first octet 127, IPv6 loopback is `::1`. -/
def is_loopback : Ip → Bool
  | .v4 a _ _ _ => a == 127
  | .v6 n => n == 1

/-- Helper for `dedup_ips`: the loop of src/crates/app/src/config.rs
`dedup_ips` with the `seen` hash set made explicit as a list. -/
def dedup_ips_aux (seen : List Ip) : List Ip → List Ip
  | [] => []
  | ip :: rest =>
    if ip ∈ seen then dedup_ips_aux seen rest
    else ip :: dedup_ips_aux (ip :: seen) rest

/-- Model of `dedup_ips` (src/crates/app/src/config.rs lines 101-110):
deduplicate a list of IPs keeping the first occurrence of each. -/
def dedup_ips (ips : List Ip) : List Ip := dedup_ips_aux [] ips

/-- The subset of `RunArgs` (src/crates/cli/src/lib.rs) that
`resolve_dns_allow_from` reads: the explicit allow-list and the optional
extra DNS IP. -/
structure DnsArgs where
  allow_dns : List Ip
  dns : Option Ip

/-- Model of `resolve_dns_allow_from` (src/crates/app/src/config.rs lines
59-78).  The Rust function returns `Result` but has no error path, so the
model is a plain function. -/
def resolve_dns_allow_from (args : DnsArgs) (resolv systemd : List Ip) : List Ip :=
  let ips :=
    if !args.allow_dns.isEmpty then args.allow_dns
    else
      let ips := resolv
      let only_loopback := !ips.isEmpty && ips.all is_loopback
      if (ips.isEmpty || only_loopback) && !systemd.isEmpty then ips ++ systemd
      else ips
  let ips :=
    match args.dns with
    | some d => d :: ips
    | none => ips
  dedup_ips ips

/-- Specification-side rendering of the DNS allow-list resolution, written
from the words of the spec: caller override ignores both resolv files;
otherwise `/etc/resolv.conf` IPs are used and, when that list is empty or
all-loopback, the (non-empty) systemd list is appended; an extra DNS IP is
prepended; the result is deduplicated. -/
def dns_allow_spec (args : DnsArgs) (resolv systemd : List Ip) : List Ip :=
  let base :=
    if !args.allow_dns.isEmpty then args.allow_dns
    else
      resolv ++
        (if (resolv.isEmpty || resolv.all is_loopback) && !systemd.isEmpty then systemd
         else [])
  let full :=
    match args.dns with
    | some d => d :: base
    | none => base
  dedup_ips full

/-- Scan loop of `next_pref` (src/crates/app/src/config.rs lines 112-118)
with an explicit fuel bound: step past every occupied priority.  The Rust
loop `while prefs.contains(&pref) { pref += 1 }` terminates because the
set is finite; `find_free` supplies fuel covering every occupied value. -/
def find_free_fuel : ℕ → Finset ℕ → ℕ → ℕ
  | 0, _, p => p
  | fuel + 1, prefs, p => if p ∈ prefs then find_free_fuel fuel prefs (p + 1) else p

/-- Model of `next_pref`'s scan loop: the least value at or above `p` not
in `prefs`.  Fuel `prefs.sup id + 1 - p` is enough to walk past every
member of the set. -/
def find_free (prefs : Finset ℕ) (p : ℕ) : ℕ :=
  find_free_fuel (prefs.sup id + 1 - p) prefs p

/-- Model of `next_pref` (src/crates/app/src/config.rs lines 112-118): scan
up from `p`, skip used priorities, insert the chosen one into the set.
The mutable `HashSet` argument becomes an explicit returned set. -/
def next_pref (prefs : Finset ℕ) (p : ℕ) : ℕ × Finset ℕ :=
  let q := find_free prefs p
  (q, insert q prefs)

/-- Model of `proxyvpn_state::RouteBypassRule`. -/
structure RouteBypassRule where
  pref : ℕ
  ip : Ip
deriving DecidableEq, Repr

/-- Model of `add_bypass_rules` (src/crates/app/src/config.rs lines 80-99):
allocate one priority per IPv4 in `ips` starting from `start`, advancing
the scan start past each allocation.  The netlink `add_rule_to_ip` call is
an external effect with no bearing on the allocation and is dropped. -/
def add_bypass_rules (prefs : Finset ℕ) (start : ℕ) :
    List Ip → List RouteBypassRule × Finset ℕ
  | [] => ([], prefs)
  | .v6 _ :: rest => add_bypass_rules prefs start rest
  | .v4 a b c d :: rest =>
    let q := find_free prefs start
    let prefs2 := insert q prefs
    let out := add_bypass_rules prefs2 (q + 1) rest
    (⟨q, .v4 a b c d⟩ :: out.1, out.2)

/-- Iterated `next_pref` calls with the same starting value: the list of
priorities returned by `n` successive calls. -/
def next_pref_run (prefs : Finset ℕ) (p : ℕ) : ℕ → List ℕ
  | 0 => []
  | n + 1 =>
    let q := find_free prefs p
    q :: next_pref_run (insert q prefs) p n

/-- Split a character list at the first occurrence of `c`, modelling
`str::split_once`. -/
def split_once (c : Char) : List Char → Option (List Char × List Char)
  | [] => none
  | x :: xs =>
    if x = c then some ([], xs)
    else
      match split_once c xs with
      | some (a, b) => some (x :: a, b)
      | none => none

/-- Split a character list at every occurrence of `c`, modelling
`str::split`. -/
def split_all (c : Char) : List Char → List (List Char)
  | [] => [[]]
  | x :: xs =>
    let r := split_all c xs
    if x = c then [] :: r
    else
      match r with
      | h :: t => (x :: h) :: t
      | [] => [[x]]

/-- Numeric value of a digit list (most significant first). -/
def digits_value : List Char → Nat → Nat
  | [], acc => acc
  | ch :: rest, acc => digits_value rest (acc * 10 + (ch.toNat - 48))

/-- Parse a non-empty all-digit character list, modelling the digit phase
of Rust integer parsing. -/
def parse_digits (cs : List Char) : Option Nat :=
  if cs.isEmpty then none
  else if cs.all (fun ch => ch.isDigit) then some (digits_value cs 0)
  else none

/-- Model of `u8::from_str` as used by `parse_tun_cidr`: an optional
leading plus sign, then digits, value at most 255. -/
def parse_u8 (cs : List Char) : Option Nat :=
  let body :=
    match cs with
    | '+' :: rest => rest
    | _ => cs
  match parse_digits body with
  | some v => if v ≤ 255 then some v else none
  | none => none

/-- Model of one dotted-quad octet of `Ipv4Addr::from_str`: digits only,
no leading zero, at most 255. -/
def parse_octet (cs : List Char) : Option Nat :=
  match cs with
  | '0' :: _ :: _ => none
  | _ =>
    match parse_digits cs with
    | some v => if v ≤ 255 then some v else none
    | none => none

/-- Model of `Ipv4Addr::from_str`: four octets separated by dots. -/
def parse_ipv4 (cs : List Char) : Option Ip :=
  match (split_all '.' cs).map parse_octet with
  | [some a, some b, some c, some d] => some (.v4 a b c d)
  | _ => none

/-- Netmask computed by `parse_tun_cidr`: `0` when the prefix length is
`0`, otherwise `u32::MAX << (32 - p)` truncated to 32 bits. -/
def mask_of (p : Nat) : Nat :=
  if p = 0 then 0 else 2 ^ 32 - 2 ^ (32 - p)

/-- Model of `parse_tun_cidr` (src/crates/app/src/config.rs lines
120-134): split at the slash, parse the address and the `u8` prefix
length, reject prefix lengths above 32, and compute the netmask.  The
returned triple is (address, netmask as a 32-bit value, prefix length). -/
def parse_tun_cidr (s : String) : Except String (Ip × Nat × Nat) :=
  match split_once '/' s.data with
  | none => .error "invalid TUN CIDR (expected A.B.C.D/NN)"
  | some (addr_str, len_str) =>
    match parse_ipv4 addr_str with
    | none => .error "invalid TUN IP"
    | some addr =>
      match parse_u8 len_str with
      | none => .error "invalid TUN prefix length"
      | some p =>
        if p > 32 then .error "invalid TUN prefix length"
        else .ok (addr, mask_of p, p)

/-- Filesystem state visible to `StateStore::remove_state_files`: whether
the state directory, lock file and state file exist, and how many other
entries the directory holds. -/
structure FsState where
  dir_exists : Bool
  lock_exists : Bool
  state_exists : Bool
  other_entries : Nat
deriving DecidableEq, Repr

/-- Model of `StateStore::remove_state_files` (src/crates/state/src/lib.rs
lines 150-158).  Every deletion result is discarded in the source
(`let _ = ...`), so each step is best-effort: removing a missing file is a
no-op, and the directory is removed only when it exists and is empty.
The function always returns `Ok`. -/
def remove_state_files (fs : FsState) (keep_logs : Bool) : Except String FsState :=
  let fs1 : FsState := { fs with lock_exists := false }
  if keep_logs then .ok fs1
  else
    let fs2 : FsState := { fs1 with state_exists := false }
    let fs3 : FsState :=
      if fs2.dir_exists && fs2.other_entries == 0 then { fs2 with dir_exists := false }
      else fs2
    .ok fs3

/-- Model of `proxyvpn_proxy::ProxyConfig` (src/crates/proxy/src/lib.rs). -/
structure ProxyConfig where
  host : String
  port : Nat
  username : String
  password : String

/-- The standard base64 alphabet used by the `base64` crate engine
`general_purpose::STANDARD`. -/
def b64_alpha : List Char :=
  "ABCDEFGHIJKLMNOPQRSTUVWXYZabcdefghijklmnopqrstuvwxyz0123456789+/".data

/-- One base64 alphabet character. -/
def b64_char (n : Nat) : Char := b64_alpha.getD n 'A'

/-- Standard base64 with padding over a byte list, modelling the external
`base64` crate's STANDARD engine. -/
def b64_encode : List Nat → List Char
  | [] => []
  | [a] => [b64_char (a / 4), b64_char (a % 4 * 16), '=', '=']
  | [a, b] => [b64_char (a / 4), b64_char (a % 4 * 16 + b / 16), b64_char (b % 16 * 4), '=']
  | a :: b :: c :: rest =>
    b64_char (a / 4) :: b64_char (a % 4 * 16 + b / 16) ::
      b64_char (b % 16 * 4 + c / 64) :: b64_char (c % 64) :: b64_encode rest

/-- UTF-8 encoding of one character, as Rust strings are UTF-8 byte
sequences. -/
def utf8_char (c : Char) : List Nat :=
  let n := c.toNat
  if n < 128 then [n]
  else if n < 2048 then [192 + n / 64, 128 + n % 64]
  else if n < 65536 then [224 + n / 4096, 128 + n / 64 % 64, 128 + n % 64]
  else [240 + n / 262144, 128 + n / 4096 % 64, 128 + n / 64 % 64, 128 + n % 64]

/-- Byte sequence of a string (UTF-8). -/
def str_bytes (s : String) : List Nat := (s.data.map utf8_char).flatten

/-- Dotted-quad rendering of an IPv4 address (`Ipv4Addr` Display); IPv6 is
never rendered on the paths modelled here. -/
def ipv4_render : Ip → String
  | .v4 a b c d =>
    toString a ++ "." ++ toString b ++ "." ++ toString c ++ "." ++ toString d
  | .v6 _ => ""

/-- Model of the CONNECT request built by `connect_http_connect_with`
(src/crates/proxy/src/lib.rs lines 68-79): the `format!` string with the
target address rendered twice and the base64 Basic credentials. -/
def connect_req (target_ip : Ip) (target_port : Nat) (proxy : ProxyConfig) : String :=
  let auth := String.mk (b64_encode (str_bytes (proxy.username ++ ":" ++ proxy.password)))
  "CONNECT " ++ ipv4_render target_ip ++ ":" ++ toString target_port ++
    " HTTP/1.1\r\nHost: " ++ ipv4_render target_ip ++ ":" ++ toString target_port ++
    "\r\nProxy-Authorization: Basic " ++ auth ++ "\r\n\r\n"

/-- Specification-side template of the CONNECT request, written from the
spec: `CONNECT {dst_ip}:{dst_port} HTTP/1.1\r\nHost: {dst_ip}:{dst_port}\r\n`
then `Proxy-Authorization: Basic {b64(user:pass)}\r\n\r\n`, with `b64` the
standard base64 of the colon-joined credentials. -/
def connect_req_spec (target_ip : Ip) (target_port : Nat) (proxy : ProxyConfig) : String :=
  "CONNECT " ++ ipv4_render target_ip ++ ":" ++ toString target_port ++
    " HTTP/1.1\r\nHost: " ++ ipv4_render target_ip ++ ":" ++ toString target_port ++
    "\r\nProxy-Authorization: Basic " ++
    String.mk (b64_encode (str_bytes (proxy.username ++ ":" ++ proxy.password))) ++
    "\r\n\r\n"

/-- Whether the buffer starts with the four-byte header terminator
CRLFCRLF. -/
def starts_term : List Nat → Bool
  | 13 :: 10 :: 13 :: 10 :: _ => true
  | _ => false

/-- Whether the four-byte header terminator CRLFCRLF occurs anywhere in
the buffer, modelling `buf.windows(4).any(|w| w == b"\r\n\r\n")`. -/
def has_term : List Nat → Bool
  | [] => false
  | x :: rest => starts_term (x :: rest) || has_term rest

/-- Outcome of the CONNECT response read loop. -/
inductive ReadOutcome where
  | done : List Nat → ReadOutcome
  | peer_closed : ReadOutcome
  | too_large : ReadOutcome
  | pending : List Nat → ReadOutcome
deriving DecidableEq, Repr

/-- Model of the response read loop of `connect_http_connect_with`
(src/crates/proxy/src/lib.rs lines 82-96).  The input is the sequence of
byte chunks successive `stream.read` calls returned; an empty chunk is a
zero-byte read (peer closed).  When the chunk list runs out before the
loop stops, the real loop would still be blocked reading, which the model
reports as `pending`. -/
def read_connect_response (buf : List Nat) : List (List Nat) → ReadOutcome
  | [] => .pending buf
  | c :: rest =>
    if c.isEmpty then .peer_closed
    else
      let buf2 := buf ++ c
      if has_term buf2 then .done buf2
      else if 16 * 1024 < buf2.length then .too_large
      else read_connect_response buf2 rest

/-- Length of a header-section terminator starting at the head of the
buffer: a line ending (always an LF here, since every header line ends
in `\n`, optionally preceded by `\r`) immediately followed by an empty
line, which `httparse` accepts as either `\n` or `\r\n`.  So the
terminator is `\n\n` (length 2) or `\n\r\n` (length 3); the usual
CRLFCRLF ends with the latter. -/
def hdr_term_len : List Nat → Option Nat
  | 10 :: 10 :: _ => some 2
  | 10 :: 13 :: 10 :: _ => some 3
  | _ => none

/-- Byte position just past the end of the header section, modelling the
`n` of `httparse::Response::parse` returning `Status::Complete(n)`:
headers end at the first empty line, where `httparse` accepts both CRLF
and bare-LF line endings (header-field syntax validation is not
modelled).  For a response whose header lines are CRLF-terminated this
is the end of the first CRLFCRLF. -/
def term_end : List Nat → Option Nat
  | [] => none
  | x :: rest =>
    match hdr_term_len (x :: rest) with
    | some k => some k
    | none => (term_end rest).map (· + 1)

/-- Status code of the response status line, modelling the external
`httparse` contract on a well-formed `HTTP/1.x NNN ...` status line. -/
def parse_status_code : List Nat → Option Nat
  | 72 :: 84 :: 84 :: 80 :: 47 :: 49 :: 46 :: v :: 32 :: a :: b :: c :: _ =>
    if 48 ≤ v && v ≤ 57 && 48 ≤ a && a ≤ 57 && 48 ≤ b && b ≤ 57 && 48 ≤ c && c ≤ 57
    then some ((a - 48) * 100 + (b - 48) * 10 + (c - 48))
    else none
  | _ => none

/-- Errors of the CONNECT exchange, matching the `anyhow!` error arms of
`connect_http_connect_with`. -/
inductive ConnectErr where
  | peer_closed : ConnectErr
  | too_large : ConnectErr
  | rejected : Nat → ConnectErr
  | malformed : ConnectErr
  | incomplete : ConnectErr
deriving DecidableEq, Repr

/-- Model of the response phase of `connect_http_connect_with`
(src/crates/proxy/src/lib.rs lines 82-114): run the read loop, locate the
end of the header, parse the status code, reject non-200, and return the
bytes past the header as leftover (`None` when there are none). -/
def connect_response (chunks : List (List Nat)) : Except ConnectErr (Option (List Nat)) :=
  match read_connect_response [] chunks with
  | .peer_closed => .error .peer_closed
  | .too_large => .error .too_large
  | .pending _ => .error .incomplete
  | .done buf =>
    match term_end buf with
    | none => .error .malformed
    | some n =>
      match parse_status_code buf with
      | none => .error .malformed
      | some code =>
        if code ≠ 200 then .error (.rejected code)
        else .ok (if n < buf.length then some (buf.drop n) else none)

/-- Specification-side predicate rendering the original claim's
terminator: `n` is the end position of the first CRLFCRLF in `buf` (the
terminator occupies positions n-4..n-1, and no CRLFCRLF ends at any
earlier position). -/
def first_term_end (buf : List Nat) (n : Nat) : Prop :=
  4 ≤ n ∧ n ≤ buf.length ∧ ((buf.take n).drop (n - 4) = [13, 10, 13, 10]) ∧
    has_term (buf.take (n - 1)) = false

/-- Specification-side predicate: a header-section terminator (`\n\n` of
length 2 or `\n\r\n` of length 3) starts at position `j` of `buf`. -/
def hdr_term_at (buf : List Nat) (j k : Nat) : Prop :=
  (k = 2 ∧ (buf.drop j).take 2 = [10, 10]) ∨
  (k = 3 ∧ (buf.drop j).take 3 = [10, 13, 10])

/-- Specification-side predicate: `n` is the end position of the first
header-section terminator of `buf` (no terminator starts earlier). -/
def first_hdr_end (buf : List Nat) (n : Nat) : Prop :=
  ∃ j k, hdr_term_at buf j k ∧ n = j + k ∧ n ≤ buf.length ∧
    ∀ i k2, i < j → ¬hdr_term_at buf i k2

/-- Specification-side predicate on the read-call trace: the loop passes
step `j` for every `j < k` (each of the first `k` reads was non-empty, and
after each of them the accumulated buffer neither contained the terminator
nor exceeded 16 KiB). -/
def reads_continue (acc : List Nat) (chunks : List (List Nat)) (k : Nat) : Prop :=
  ∀ j < k, chunks.getD j [] ≠ [] ∧
    has_term (acc ++ (chunks.take (j + 1)).flatten) = false ∧
    (acc ++ (chunks.take (j + 1)).flatten).length ≤ 16 * 1024


/-- Rendering of an IP for nft command argv (`ip.to_string()`): the
dotted quad for IPv4.  The IPv6 textual form is not modelled (no theorem
here depends on it); the abstract value is shown instead. -/
def ip_render : Ip → String
  | .v4 a b c d =>
    toString a ++ "." ++ toString b ++ "." ++ toString c ++ "." ++ toString d
  | .v6 n => "v6:" ++ toString n

/-- Rust `format!("0x{:x}", n)`: lowercase hexadecimal with a 0x tag. -/
def hex_str (n : Nat) : String := "0x" ++ String.mk (Nat.toDigits 16 n)

/-- Model of `proxyvpn_mark::MarkConfig`. -/
structure MarkConfig where
  mark : Nat
  exclude_ips : List Ip

/-- Model of `build_commands` (src/crates/mark/src/nft.rs lines 12-54):
the nft argv vectors for the mangle table, in push order: delete table,
add table, add the type-route output-hook priority -150 accept-policy
chain, the non-TCP early accept, one accept per excluded IPv4
destination, and finally the TCP set-mark rule. -/
def build_commands (cfg : MarkConfig) (table chain : String) : List (List String) :=
  let cmds : List (List String) := []
  let cmds := cmds ++ [["delete", "table", "inet", table]]
  let cmds := cmds ++ [["add", "table", "inet", table]]
  let cmds := cmds ++ [["add", "chain", "inet", table, chain, "\x7b", "type", "route",
    "hook", "output", "priority", "-150", ";", "policy", "accept", ";", "\x7d"]]
  let cmds := cmds ++ [["add", "rule", "inet", table, chain,
    "meta", "l4proto", "!=", "tcp", "accept"]]
  let cmds := cmds ++ (cfg.exclude_ips.filter Ip.is_ipv4).map (fun ip =>
    ["add", "rule", "inet", table, chain, "ip", "daddr", ip_render ip, "accept"])
  cmds ++ [["add", "rule", "inet", table, chain,
    "meta", "l4proto", "tcp", "meta", "mark", "set", hex_str cfg.mark]]

/-- Parsed form of one mangle rule command, for giving the generated argv
vectors their nft semantics. -/
inductive MarkRule where
  | accept_non_tcp : MarkRule
  | accept_daddr : String → MarkRule
  | set_mark : String → MarkRule
deriving DecidableEq, Repr

/-- Interpretation of one generated argv vector as a rule of the chain
(non-rule commands yield none). -/
def parse_rule_cmd : List String → Option MarkRule
  | "add" :: "rule" :: "inet" :: _ :: _ :: rest =>
    match rest with
    | ["meta", "l4proto", "!=", "tcp", "accept"] => some .accept_non_tcp
    | ["ip", "daddr", ip, "accept"] => some (.accept_daddr ip)
    | ["meta", "l4proto", "tcp", "meta", "mark", "set", m] => some (.set_mark m)
    | _ => none
  | _ => none

/-- The rule list of the mangle chain, in order. -/
def mark_chain_rules (cfg : MarkConfig) (table chain : String) : List MarkRule :=
  (build_commands cfg table chain).filterMap parse_rule_cmd

/-- A packet as seen by the mangle chain: L4 protocol name, destination
address text, current meta mark. -/
structure MarkPacket where
  l4proto : String
  daddr : String
  mark : Option String
deriving DecidableEq, Repr

/-- Top-to-bottom first-match evaluation of the chain under nftables
semantics: an accept verdict ends evaluation; a set-mark statement
updates the mark and evaluation continues; the default policy (accept)
applies at the end. -/
def eval_mark_chain : List MarkRule → MarkPacket → MarkPacket
  | [], pkt => pkt
  | .accept_non_tcp :: rest, pkt =>
    if pkt.l4proto ≠ "tcp" then pkt else eval_mark_chain rest pkt
  | .accept_daddr ip :: rest, pkt =>
    if pkt.daddr = ip then pkt else eval_mark_chain rest pkt
  | .set_mark m :: rest, pkt =>
    if pkt.l4proto = "tcp" then eval_mark_chain rest { pkt with mark := some m }
    else eval_mark_chain rest pkt

/-- Constant `PROXY_BYPASS_MARK` (src/crates/app/src/run.rs line 22): the
SO_MARK value set on every upstream proxy socket. -/
def PROXY_BYPASS_MARK : Nat := 2

/-- Model of `proxyvpn_firewall::FirewallConfig`
(src/crates/firewall/src/lib.rs). -/
structure FirewallConfigD where
  tun_name : String
  proxy_ips : List Ip
  proxy_port : Nat
  dns_ips : List Ip
  allow_udp_dns : Bool
  proxy_mark : Nat

/-- Model of the kill-switch `build_cmds` (src/crates/firewall/src/nft.rs
lines 19-112), in push order: delete table, add table, add the
filter-type output-hook priority 0 drop-policy chain, accept loopback
output, accept TUN output, accept packets whose meta mark equals
`cfg.proxy_mark`, accept TCP to each proxy IP on the proxy port, and
accept UDP (when enabled) and TCP to each DNS IPv4 on port 53. -/
def fw_build_cmds (cfg : FirewallConfigD) (table chain : String) : List (List String) :=
  let cmds : List (List String) := []
  let cmds := cmds ++ [["delete", "table", "inet", table]]
  let cmds := cmds ++ [["add", "table", "inet", table]]
  let cmds := cmds ++ [["add", "chain", "inet", table, chain, "\x7b", "type", "filter",
    "hook", "output", "priority", "0", ";", "policy", "drop", ";", "\x7d"]]
  let cmds := cmds ++ [["add", "rule", "inet", table, chain, "oifname", "lo", "accept"]]
  let cmds := cmds ++ [["add", "rule", "inet", table, chain,
    "oifname", cfg.tun_name, "accept"]]
  let cmds := cmds ++ [["add", "rule", "inet", table, chain,
    "meta", "mark", hex_str cfg.proxy_mark, "accept"]]
  let cmds := cmds ++ cfg.proxy_ips.map (fun ip =>
    ["add", "rule", "inet", table, chain, "ip", "daddr", ip_render ip,
     "tcp", "dport", toString cfg.proxy_port, "accept"])
  cmds ++ (cfg.dns_ips.filter Ip.is_ipv4).flatMap (fun ip =>
    (if cfg.allow_udp_dns
     then [["add", "rule", "inet", table, chain, "ip", "daddr", ip_render ip,
            "udp", "dport", "53", "accept"]]
     else [])
    ++ [["add", "rule", "inet", table, chain, "ip", "daddr", ip_render ip,
         "tcp", "dport", "53", "accept"]])

/-- The network-policy values chosen by `setup`
(src/crates/app/src/run.rs lines 141-173): `mark_value = 0x1` flows into
`mark.apply`, into the fwmark routing rule, and into the kill-switch
`FirewallConfig.proxy_mark`; the TUN stack is started with
`proxy_socket_mark = Some(PROXY_BYPASS_MARK)` (run.rs line 77). -/
structure SetupNets where
  mark_apply_value : Nat
  mark_exclude_ips : List Ip
  fwmark_rule_mark : Nat
  firewall : Option FirewallConfigD
  socket_mark : Option Nat

/-- Model of the mark-related dataflow of `setup` plus the stack config of
`run_with_args`: the values each kernel-facing call receives. -/
def setup_net_effects (tun_name : String) (proxy_ips dns_allow : List Ip)
    (proxy_port : Nat) (killswitch : Bool) : SetupNets :=
  let mark_value : Nat := 1
  let exclude_ips := proxy_ips ++ dns_allow
  { mark_apply_value := mark_value
  , mark_exclude_ips := exclude_ips
  , fwmark_rule_mark := mark_value
  , firewall :=
      if killswitch then
        some { tun_name := tun_name, proxy_ips := proxy_ips, proxy_port := proxy_port,
               dns_ips := dns_allow, allow_udp_dns := !dns_allow.isEmpty,
               proxy_mark := mark_value }
      else none
  , socket_mark := some PROXY_BYPASS_MARK }


/-- Model of `ConnKey` (src/crates/tunstack/src/conn.rs lines 10-15). -/
structure ConnKey where
  src_ip : Ip
  src_port : Nat
  dst_ip : Ip
  dst_port : Nat
deriving DecidableEq, Repr

/-- Model of `sniff_syn` (src/crates/tunstack/src/packet.rs lines 5-20)
over raw packet bytes.  The smoltcp `new_checked` length checks are
modelled from that library's contract: the IPv4 buffer must hold 20 bytes,
a header length (IHL*4) of at least 20 that fits inside the total length,
which in turn fits in the buffer; the TCP payload must hold 20 bytes and
a data offset of at least 20 that fits.  The key is produced only for
protocol TCP (6) with SYN set (bit 0x02 of byte 13) and ACK clear (bit
0x10). -/
def sniff_syn (packet : List Nat) : Option ConnKey :=
  if packet.length < 20 then none
  else
    let header_len := packet.getD 0 0 % 16 * 4
    let total_len := packet.getD 2 0 * 256 + packet.getD 3 0
    if header_len < 20 ∨ total_len < header_len ∨ packet.length < total_len then none
    else if packet.getD 9 0 ≠ 6 then none
    else
      let payload := (packet.take total_len).drop header_len
      if payload.length < 20 then none
      else
        let data_off := payload.getD 12 0 / 16 * 4
        if data_off < 20 ∨ payload.length < data_off then none
        else
          let flags := payload.getD 13 0
          if ¬(flags / 2 % 2 = 1) ∨ flags / 16 % 2 = 1 then none
          else
            some { src_ip := .v4 (packet.getD 12 0) (packet.getD 13 0)
                              (packet.getD 14 0) (packet.getD 15 0)
                 , src_port := payload.getD 0 0 * 256 + payload.getD 1 0
                 , dst_ip := .v4 (packet.getD 16 0) (packet.getD 17 0)
                              (packet.getD 18 0) (packet.getD 19 0)
                 , dst_port := payload.getD 2 0 * 256 + payload.getD 3 0 }

/-- State of the TUN bridge loop relevant to flow registration
(src/crates/tunstack/src/stack.rs lines 37-38, 52-67): the key map, the
connection map (each connection abstracted to its key), the socket-set
allocation counter (handles issued in order by `SocketSet::add`), and the
device rx FIFO. -/
structure StackState where
  by_key : List (ConnKey × Nat)
  conns : List (Nat × ConnKey)
  next_handle : Nat
  rx : List (List Nat)
deriving DecidableEq, Repr

/-- Model of the packet-arrival arm of `run_tun_stack`
(src/crates/tunstack/src/stack.rs lines 52-67): sniff the bytes; on a SYN
whose key is vacant, call `create_socket` — which fails, propagating out
of the loop via `?`, exactly when the smoltcp `listen` on the sniffed
destination endpoint fails, i.e. when the destination port is 0
(`ListenError::Unaddressable`; a fresh socket is always in the Closed
state, so no other failure arises) — and on success register the fresh
handle in both maps; only when no error occurred is the packet pushed
into the device rx FIFO, flow or no flow. -/
def process_packet (s : StackState) (bytes : List Nat) : Except String StackState :=
  match sniff_syn bytes with
  | some key =>
    if (s.by_key.find? (fun p => p.1 == key)).isSome then
      .ok { s with rx := s.rx ++ [bytes] }
    else if key.dst_port = 0 then
      .error "failed to listen"
    else
      let handle := s.next_handle
      .ok { by_key := s.by_key ++ [(key, handle)]
          , conns := s.conns ++ [(handle, key)]
          , next_handle := s.next_handle + 1
          , rx := s.rx ++ [bytes] }
  | none => .ok { s with rx := s.rx ++ [bytes] }

/-- The bridge-loop invariant: at most one flow per key (the key map has
no duplicate keys), every mapped handle has an entry in the connection
map, and all recorded handles are below the allocation counter. -/
def stack_inv (s : StackState) : Prop :=
  (s.by_key.map Prod.fst).Nodup ∧
  (∀ p ∈ s.by_key, ∃ q ∈ s.conns, q.1 = p.2) ∧
  (∀ p ∈ s.by_key, p.2 < s.next_handle) ∧
  (∀ q ∈ s.conns, q.1 < s.next_handle)

/-- Events of one flow of the TUN stack, as interleaved by the bridge
loop and the spawned upstream task (src/crates/tunstack/src/stack.rs
lines 79-110 and src/crates/tunstack/src/conn.rs lines 44-92). -/
inductive FlowEv where
  | arrive : List Nat → FlowEv
  | estab : FlowEv
  | task_write_pending : FlowEv
  | task_write_channel : FlowEv

/-- Per-flow state: the `connected` flag and `pending_to_proxy` FIFO of
`ConnState`, the pending queue swapped into the spawned task, the
`to_proxy` channel contents, the chunks written to the upstream stream so
far, and (ghost) every chunk the engine socket has delivered. -/
structure FlowState where
  connected : Bool
  pending_to_proxy : List (List Nat)
  task_pending : List (List Nat)
  channel : List (List Nat)
  written : List (List Nat)
  received : List (List Nat)
deriving DecidableEq, Repr

/-- Initial flow state (`ConnState::new`). -/
def flow_init : FlowState :=
  { connected := false, pending_to_proxy := [], task_pending := [],
    channel := [], written := [], received := [] }

/-- One step of the flow system.  `arrive c` is the engine-socket recv
closure (non-empty chunks go to the channel when connected, else to
`pending_to_proxy`); `estab` is `spawn_proxy_task` (a no-op when already
connected; otherwise it swaps the pending FIFO into the task and sets
`connected`); `task_write_pending` is the task writing the head of its
swapped pending queue; `task_write_channel` is the task writing the head
of the channel, which the task reaches only after its pending queue is
fully drained. -/
def flow_step (s : FlowState) : FlowEv → FlowState
  | .arrive c =>
    if c.isEmpty then s
    else if s.connected then
      { s with channel := s.channel ++ [c], received := s.received ++ [c] }
    else
      { s with pending_to_proxy := s.pending_to_proxy ++ [c],
               received := s.received ++ [c] }
  | .estab =>
    if s.connected then s
    else { s with connected := true, task_pending := s.pending_to_proxy,
                  pending_to_proxy := [] }
  | .task_write_pending =>
    match s.task_pending with
    | [] => s
    | c :: rest => { s with task_pending := rest, written := s.written ++ [c] }
  | .task_write_channel =>
    if s.connected ∧ s.task_pending = [] then
      match s.channel with
      | [] => s
      | c :: rest => { s with channel := rest, written := s.written ++ [c] }
    else s

/-- Run a flow event trace from the initial state. -/
def flow_run (evs : List FlowEv) : FlowState := evs.foldl flow_step flow_init

/-- The per-flow ordering invariant: the chunks written upstream followed
by the still-queued chunks (task queue, then channel, then un-swapped
pending FIFO) are exactly the received chunks in order; before the spawn,
the task queue and channel are empty. -/
def flow_inv (s : FlowState) : Prop :=
  (s.connected = false → s.task_pending = [] ∧ s.channel = [] ∧ s.written = []) ∧
  (s.connected = true → s.pending_to_proxy = []) ∧
  s.written ++ s.task_pending ++ s.channel ++ s.pending_to_proxy = s.received

/-! ### Theorems -/

theorem dedup_ips_aux_sublist (L : List Ip) :
    ∀ seen, List.Sublist (dedup_ips_aux seen L) L := by
  induction L with
  | nil => intro seen; simp [dedup_ips_aux]
  | cons ip rest ih =>
    intro seen
    rw [dedup_ips_aux]
    split
    · exact (ih seen).cons ip
    · exact (ih (ip :: seen)).cons₂ ip

theorem dedup_ips_aux_mem (L : List Ip) :
    ∀ seen x, x ∈ dedup_ips_aux seen L ↔ x ∈ L ∧ x ∉ seen := by
  induction L with
  | nil => intro seen x; simp [dedup_ips_aux]
  | cons ip rest ih =>
    intro seen x
    rw [dedup_ips_aux]
    split
    · rename_i hmem
      rw [ih seen x]
      simp only [List.mem_cons]
      constructor
      · rintro ⟨hr, hs⟩; exact ⟨Or.inr hr, hs⟩
      · rintro ⟨hor, hs⟩
        rcases hor with heq | hr
        · exact absurd (heq ▸ hmem) hs
        · exact ⟨hr, hs⟩
    · rename_i hmem
      simp only [List.mem_cons, ih (ip :: seen) x]
      constructor
      · rintro (heq | ⟨hr, hs⟩)
        · exact ⟨Or.inl heq, heq ▸ hmem⟩
        · exact ⟨Or.inr hr, fun hx => hs (Or.inr hx)⟩
      · rintro ⟨heq | hr, hs⟩
        · exact Or.inl heq
        · by_cases hxi : x = ip
          · exact Or.inl hxi
          · exact Or.inr ⟨hr, fun hx => by
              rcases hx with h | h
              · exact hxi h
              · exact hs h⟩

theorem resolve_eq_spec (args : DnsArgs) (resolv systemd : List Ip) :
    resolve_dns_allow_from args resolv systemd = dns_allow_spec args resolv systemd := by
  unfold resolve_dns_allow_from dns_allow_spec
  cases ha : args.allow_dns.isEmpty
  · simp
  · cases hre : resolv.isEmpty
    · cases hl : resolv.all is_loopback
      · cases args.dns <;> simp [hre, hl]
      · cases hsy : systemd.isEmpty <;> cases args.dns <;> simp [hre, hl, hsy]
    · have h0 : resolv = [] := List.isEmpty_iff.mp hre
      subst h0
      cases hsy : systemd.isEmpty <;> cases args.dns <;> simp [hsy]
theorem find_free_fuel_spec :
    ∀ (fuel : ℕ) (prefs : Finset ℕ) (p : ℕ), prefs.sup id < p + fuel →
      find_free_fuel fuel prefs p ∉ prefs ∧ p ≤ find_free_fuel fuel prefs p ∧
      ∀ w, p ≤ w → w < find_free_fuel fuel prefs p → w ∈ prefs := by
  intro fuel
  induction fuel with
  | zero =>
    intro prefs p hsup
    simp only [find_free_fuel]
    refine ⟨fun hmem => ?_, le_refl p, fun w hw hw2 => by omega⟩
    have := Finset.le_sup (f := id) hmem
    simp only [id] at this
    omega
  | succ n ih =>
    intro prefs p hsup
    rw [find_free_fuel]
    split
    · rename_i hmem
      have hrec := ih prefs (p + 1) (by omega)
      refine ⟨hrec.1, by omega, fun w hw hw2 => ?_⟩
      rcases Nat.eq_or_lt_of_le hw with heq | hlt
      · exact heq ▸ hmem
      · exact hrec.2.2 w hlt hw2
    · rename_i hmem
      exact ⟨hmem, le_refl p, fun w hw hw2 => absurd (lt_of_le_of_lt hw hw2) (by simp)⟩

theorem find_free_spec (prefs : Finset ℕ) (p : ℕ) :
    find_free prefs p ∉ prefs ∧ p ≤ find_free prefs p ∧
    ∀ w, p ≤ w → w < find_free prefs p → w ∈ prefs := by
  unfold find_free
  by_cases hp : prefs.sup id < p
  · exact find_free_fuel_spec _ prefs p (by omega)
  · exact find_free_fuel_spec _ prefs p (by omega)

theorem find_free_insert_gt (prefs : Finset ℕ) (p : ℕ) :
    find_free prefs p < find_free (insert (find_free prefs p) prefs) p := by
  set q := find_free prefs p with hq
  obtain ⟨hq1, hq2, hq3⟩ := find_free_spec prefs p
  obtain ⟨hr1, hr2, hr3⟩ := find_free_spec (insert q prefs) p
  set r := find_free (insert q prefs) p with hr
  have hrq : r ≠ q := fun h => hr1 (h ▸ Finset.mem_insert_self q prefs)
  have hrp : r ∉ prefs := fun h => hr1 (Finset.mem_insert_of_mem h)
  rcases lt_trichotomy q r with h | h | h
  · exact h
  · exact absurd h.symm hrq
  · exact absurd (hq3 r hr2 h) hrp

theorem next_pref_run_lower (n : ℕ) :
    ∀ (prefs : Finset ℕ) (p : ℕ) (x : ℕ), x ∈ next_pref_run prefs p n →
      find_free prefs p ≤ x := by
  induction n with
  | zero => intro prefs p x hx; simp [next_pref_run] at hx
  | succ n ih =>
    intro prefs p x hx
    rw [next_pref_run] at hx
    rcases List.mem_cons.mp hx with h | h
    · exact h ▸ le_refl _
    · exact le_of_lt (lt_of_lt_of_le (find_free_insert_gt prefs p) (ih _ p x h))

theorem next_pref_run_sorted (n : ℕ) :
    ∀ (prefs : Finset ℕ) (p : ℕ), (next_pref_run prefs p n).Pairwise (· < ·) := by
  induction n with
  | zero => intro prefs p; simp [next_pref_run]
  | succ n ih =>
    intro prefs p
    rw [next_pref_run]
    refine List.Pairwise.cons (fun x hx => ?_) (ih _ p)
    exact lt_of_lt_of_le (find_free_insert_gt prefs p) (next_pref_run_lower n _ p x hx)

theorem add_bypass_rules_length (ips : List Ip) :
    ∀ (prefs : Finset ℕ) (start : ℕ),
      (add_bypass_rules prefs start ips).1.length = (ips.filter Ip.is_ipv4).length := by
  induction ips with
  | nil => intro prefs start; simp [add_bypass_rules]
  | cons ip rest ih =>
    intro prefs start
    cases ip with
    | v4 a b c d => simp [add_bypass_rules, List.filter, Ip.is_ipv4, ih]
    | v6 x => simp [add_bypass_rules, List.filter, Ip.is_ipv4, ih]

/-- C5 counterexample: the claim says a prefix length of 0 must be
rejected, but `parse_tun_cidr` accepts "10.0.0.1/0" and returns netmask
0. -/
theorem parse_tun_cidr_accepts_prefix_zero :
    parse_tun_cidr "10.0.0.1/0" = .ok (.v4 10 0 0 1, 0, 0) := rfl

/-- C5 (amended): `parse_tun_cidr` accepts exactly the prefix lengths
0..32: every success has prefix length at most 32 and netmask
(prefix==0)?0:(~0 << (32-prefix)); when the prefix part parses as a u8
greater than 32 the function fails. -/
theorem parse_tun_cidr_prefix_range :
    (∀ s addr m p, parse_tun_cidr s = .ok (addr, m, p) → p ≤ 32 ∧ m = mask_of p) ∧
    (∀ s a ps v, split_once '/' s.data = some (a, ps) → parse_u8 ps = some v → 32 < v →
      ∃ e, parse_tun_cidr s = .error e) := by
  constructor
  · intro s addr m p h
    unfold parse_tun_cidr at h
    repeat' split at h
    all_goals try (exact Except.noConfusion h)
    rename_i hguard
    have h0 := Except.ok.inj h
    have h1 := congrArg (fun t => t.2.2) h0
    have h2 := congrArg (fun t => t.2.1) h0
    simp only at h1 h2
    subst h1
    exact ⟨by omega, h2.symm⟩
  · intro s a ps v hsplit hu8 hv
    unfold parse_tun_cidr
    rcases hip : parse_ipv4 a with _ | a0 <;>
      simp [hsplit, hip, hu8, hv]

theorem parse_tun_cidr_prefix_range_witness :
    ((30 : ℕ) ≤ 32 ∧ (4294967292 : ℕ) = mask_of 30) ∧
    ∃ e, parse_tun_cidr "10.0.0.1/33" = .error e :=
  ⟨parse_tun_cidr_prefix_range.1 "10.255.255.1/30" (.v4 10 255 255 1) 4294967292 30 rfl,
   parse_tun_cidr_prefix_range.2 "10.0.0.1/33" "10.0.0.1".data "33".data 33 rfl rfl
     (by decide)⟩

/-- C7: the DNS allow-list resolution equals its specification (caller
override wins and ignores both resolv files; otherwise /etc/resolv.conf,
with the systemd list appended when resolv is empty or all loopback; the
extra DNS IP is prepended), and dedup returns a sub-sequence of its input
with the same elements. -/
theorem dns_allow_resolution :
    (∀ args resolv systemd,
      resolve_dns_allow_from args resolv systemd = dns_allow_spec args resolv systemd) ∧
    (∀ L, List.Sublist (dedup_ips L) L) ∧
    (∀ L x, x ∈ dedup_ips L ↔ x ∈ L) := by
  refine ⟨resolve_eq_spec, fun L => dedup_ips_aux_sublist L [], fun L x => ?_⟩
  rw [dedup_ips, dedup_ips_aux_mem]
  simp

/-- C8: the priority allocator returns the least free value at or above
the start, never a used one; the chosen value is inserted; repeated calls
with the same start yield strictly increasing values; and the bypass-rule
installer allocates one priority per IPv4 address. -/
theorem next_pref_allocator :
    (∀ S v, (next_pref S v).1 ∉ S ∧ v ≤ (next_pref S v).1 ∧
      (∀ w, v ≤ w → w < (next_pref S v).1 → w ∈ S) ∧
      (next_pref S v).2 = insert (next_pref S v).1 S) ∧
    (∀ S v n, (next_pref_run S v n).Pairwise (· < ·)) ∧
    (∀ S v ips, (add_bypass_rules S v ips).1.length = (ips.filter Ip.is_ipv4).length) := by
  refine ⟨fun S v => ?_, fun S v n => next_pref_run_sorted n S v,
    fun S v ips => add_bypass_rules_length ips S v⟩
  obtain ⟨h1, h2, h3⟩ := find_free_spec S v
  exact ⟨h1, h2, h3, rfl⟩

theorem next_pref_allocator_witness :
    (1001 : ℕ) ∈ ({1000, 1001} : Finset ℕ) :=
  (next_pref_allocator.1 {1000, 1001} 1000).2.2.1 1001 (by decide) (by decide)

/-- C10: `remove_state_files` always succeeds, and running it a second
time with the same flag succeeds and leaves the same terminal filesystem
state. -/
theorem remove_state_files_total_idempotent :
    ∀ fs keep_logs, ∃ fs2,
      remove_state_files fs keep_logs = .ok fs2 ∧
      remove_state_files fs2 keep_logs = .ok fs2 := by
  intro fs kl
  rcases fs with ⟨d, l, s, o⟩
  cases kl
  · refine ⟨_, rfl, ?_⟩
    simp only [remove_state_files]
    split_ifs <;> simp_all
  · exact ⟨_, rfl, rfl⟩

theorem starts_term_iff (l : List Nat) :
    starts_term l = true ↔ ∃ t, l = 13 :: 10 :: 13 :: 10 :: t := by
  constructor
  · intro h
    match l, h with
    | 13 :: 10 :: 13 :: 10 :: t, _ => exact ⟨t, rfl⟩
  · rintro ⟨t, rfl⟩
    rfl

theorem hdr_term_len_some (l : List Nat) (k : Nat) (h : hdr_term_len l = some k) :
    (k = 2 ∧ ∃ t, l = 10 :: 10 :: t) ∨ (k = 3 ∧ ∃ t, l = 10 :: 13 :: 10 :: t) := by
  match l, h with
  | 10 :: 10 :: t, h => exact Or.inl ⟨(Option.some.inj h).symm, t, rfl⟩
  | 10 :: 13 :: 10 :: t, h => exact Or.inr ⟨(Option.some.inj h).symm, t, rfl⟩

theorem hdr_term_len_of_at (l : List Nat) (k : Nat)
    (h : (k = 2 ∧ l.take 2 = [10, 10]) ∨ (k = 3 ∧ l.take 3 = [10, 13, 10])) :
    hdr_term_len l = some k := by
  rcases h with ⟨hk, ht⟩ | ⟨hk, ht⟩
  · subst hk
    rcases l with _ | ⟨a, _ | ⟨b, t⟩⟩ <;> simp at ht
    obtain ⟨ha, hb⟩ := ht
    subst ha
    subst hb
    rfl
  · subst hk
    rcases l with _ | ⟨a, _ | ⟨b, _ | ⟨c, t⟩⟩⟩ <;> simp at ht
    obtain ⟨ha, hb, hc⟩ := ht
    subst ha
    subst hb
    subst hc
    rfl

theorem hdr_term_at_cons (x : Nat) (rest : List Nat) (j k : Nat) :
    hdr_term_at (x :: rest) (j + 1) k ↔ hdr_term_at rest j k := by
  unfold hdr_term_at
  rw [List.drop_succ_cons]

theorem hdr_term_at_zero_iff (l : List Nat) (k : Nat) :
    hdr_term_at l 0 k ↔ ((k = 2 ∧ l.take 2 = [10, 10]) ∨ (k = 3 ∧ l.take 3 = [10, 13, 10])) := by
  unfold hdr_term_at
  rw [List.drop_zero]

theorem term_end_first_hdr (buf : List Nat) :
    ∀ n, term_end buf = some n → first_hdr_end buf n := by
  induction buf with
  | nil => intro n h; exact absurd h (by simp [term_end])
  | cons x rest ih =>
    intro n h
    rw [term_end] at h
    cases hl : hdr_term_len (x :: rest) with
    | some k =>
      rw [hl] at h
      dsimp only at h
      have hn : n = k := (Option.some.inj h).symm
      subst hn
      rcases hdr_term_len_some _ _ hl with ⟨hk, t, hsh⟩ | ⟨hk, t, hsh⟩
      · refine ⟨0, n, ?_, by omega, ?_, fun i k2 hi => absurd hi (by omega)⟩
        · rw [hdr_term_at_zero_iff]
          exact Or.inl ⟨hk, by rw [hsh]; rfl⟩
        · rw [hsh, hk]
          simp
      · refine ⟨0, n, ?_, by omega, ?_, fun i k2 hi => absurd hi (by omega)⟩
        · rw [hdr_term_at_zero_iff]
          exact Or.inr ⟨hk, by rw [hsh]; rfl⟩
        · rw [hsh, hk]
          simp
    | none =>
      rw [hl] at h
      dsimp only at h
      obtain ⟨m, hm, hnm⟩ := Option.map_eq_some'.mp h
      obtain ⟨j, k, hat, hmk, hlen, hmin⟩ := ih m hm
      subst hnm
      refine ⟨j + 1, k, (hdr_term_at_cons x rest j k).mpr hat, by omega, by simp; omega, ?_⟩
      intro i k2 hi
      cases i with
      | zero =>
        intro hcon
        rw [hdr_term_at_zero_iff] at hcon
        exact absurd (hdr_term_len_of_at _ _ hcon) (by simp [hl])
      | succ i1 =>
        rw [hdr_term_at_cons]
        exact hmin i1 k2 (by omega)

theorem read_done_flatten (chunks : List (List Nat)) :
    ∀ acc buf, read_connect_response acc chunks = .done buf →
      ∃ k, k ≤ chunks.length ∧ buf = acc ++ (chunks.take k).flatten ∧
        has_term buf = true := by
  induction chunks with
  | nil => intro acc buf h; exact absurd h (by simp [read_connect_response])
  | cons c rest ih =>
    intro acc buf h
    rw [read_connect_response] at h
    by_cases hc : c.isEmpty
    · rw [if_pos hc] at h; exact absurd h (by simp)
    · rw [if_neg hc] at h
      by_cases ht : has_term (acc ++ c) = true
      · rw [if_pos ht] at h
        have hb : buf = acc ++ c := (ReadOutcome.done.inj h).symm
        subst hb
        exact ⟨1, by simp, by simp, ht⟩
      · rw [if_neg ht] at h
        by_cases hl : 16 * 1024 < (acc ++ c).length
        · rw [if_pos hl] at h; exact absurd h (by simp)
        · rw [if_neg hl] at h
          obtain ⟨k, hk, hbuf, hterm⟩ := ih (acc ++ c) buf h
          refine ⟨k + 1, by simpa using hk, ?_, hterm⟩
          rw [hbuf]
          simp [List.take_succ_cons]
theorem flatten_take_one (c : List Nat) (rest : List (List Nat)) :
    ((c :: rest).take 1).flatten = c := by simp

theorem flatten_take_succ (c : List Nat) (rest : List (List Nat)) (j : Nat) :
    ((c :: rest).take (j + 1)).flatten = c ++ (rest.take j).flatten := by
  rw [List.take_succ_cons]
  simp

theorem reads_continue_shift (acc c : List Nat) (rest : List (List Nat)) (k : Nat)
    (hc : c ≠ []) (hterm : has_term (acc ++ c) = false)
    (hlen : (acc ++ c).length ≤ 16 * 1024) :
    reads_continue acc (c :: rest) (k + 1) ↔ reads_continue (acc ++ c) rest k := by
  constructor
  · intro h i hi
    obtain ⟨h1, h2, h3⟩ := h (i + 1) (by omega)
    refine ⟨by simpa using h1, ?_, ?_⟩
    · rw [flatten_take_succ, ← List.append_assoc] at h2
      exact h2
    · rw [flatten_take_succ, ← List.append_assoc] at h3
      exact h3
  · intro h i hi
    cases i with
    | zero =>
      refine ⟨by simpa using hc, ?_, ?_⟩
      · rw [flatten_take_one]; exact hterm
      · rw [flatten_take_one]; exact hlen
    | succ i1 =>
      obtain ⟨h1, h2, h3⟩ := h i1 (by omega)
      refine ⟨by simpa using h1, ?_, ?_⟩
      · rw [flatten_take_succ, ← List.append_assoc]
        exact h2
      · rw [flatten_take_succ, ← List.append_assoc]
        exact h3

theorem read_closed_iff (chunks : List (List Nat)) :
    ∀ acc, read_connect_response acc chunks = .peer_closed ↔
      ∃ k, k < chunks.length ∧ reads_continue acc chunks k ∧ chunks.getD k [] = [] := by
  induction chunks with
  | nil =>
    intro acc
    simp [read_connect_response]
  | cons c rest ih =>
    intro acc
    rw [read_connect_response]
    by_cases hc : c.isEmpty
    · rw [if_pos hc]
      have hcnil : c = [] := List.isEmpty_iff.mp hc
      constructor
      · intro _
        exact ⟨0, by simp, fun j hj => absurd hj (by omega), by simp [hcnil]⟩
      · intro _; rfl
    · rw [if_neg hc]
      have hcne : c ≠ [] := fun h => hc (by simp [h])
      by_cases ht : has_term (acc ++ c) = true
      · rw [if_pos ht]
        constructor
        · intro h; exact absurd h (by simp)
        · rintro ⟨k, hk, hcont, hnil⟩
          cases k with
          | zero => exact absurd (by simpa using hnil) hcne
          | succ j =>
            obtain ⟨_, h2, _⟩ := hcont 0 (by omega)
            rw [flatten_take_one] at h2
            rw [ht] at h2
            exact absurd h2 (by simp)
      · rw [if_neg ht]
        have htf : has_term (acc ++ c) = false := by
          revert ht; cases has_term (acc ++ c) <;> simp
        by_cases hl : 16 * 1024 < (acc ++ c).length
        · rw [if_pos hl]
          constructor
          · intro h; exact absurd h (by simp)
          · rintro ⟨k, hk, hcont, hnil⟩
            cases k with
            | zero => exact absurd (by simpa using hnil) hcne
            | succ j =>
              obtain ⟨_, _, h3⟩ := hcont 0 (by omega)
              rw [flatten_take_one] at h3
              omega
        · rw [if_neg hl]
          rw [ih (acc ++ c)]
          constructor
          · rintro ⟨k, hk, hcont, hnil⟩
            refine ⟨k + 1, by simpa using hk, ?_, by simpa using hnil⟩
            exact (reads_continue_shift acc c rest k hcne htf (by omega)).mpr hcont
          · rintro ⟨k, hk, hcont, hnil⟩
            cases k with
            | zero => exact absurd (by simpa using hnil) hcne
            | succ j =>
              refine ⟨j, by simp at hk; omega, ?_, by simpa using hnil⟩
              exact (reads_continue_shift acc c rest j hcne htf (by omega)).mp hcont

theorem read_too_large_iff (chunks : List (List Nat)) :
    ∀ acc, read_connect_response acc chunks = .too_large ↔
      ∃ k, k < chunks.length ∧ reads_continue acc chunks k ∧ chunks.getD k [] ≠ [] ∧
        has_term (acc ++ (chunks.take (k + 1)).flatten) = false ∧
        16 * 1024 < (acc ++ (chunks.take (k + 1)).flatten).length := by
  induction chunks with
  | nil =>
    intro acc
    simp [read_connect_response]
  | cons c rest ih =>
    intro acc
    rw [read_connect_response]
    by_cases hc : c.isEmpty
    · rw [if_pos hc]
      have hcnil : c = [] := List.isEmpty_iff.mp hc
      constructor
      · intro h; exact absurd h (by simp)
      · rintro ⟨k, hk, hcont, hnil, _, _⟩
        cases k with
        | zero => simp [hcnil] at hnil
        | succ j =>
          have h1 := (hcont 0 (by omega)).1
          simp [hcnil] at h1
    · rw [if_neg hc]
      have hcne : c ≠ [] := fun h => hc (by simp [h])
      by_cases ht : has_term (acc ++ c) = true
      · rw [if_pos ht]
        constructor
        · intro h; exact absurd h (by simp)
        · rintro ⟨k, hk, hcont, hnil, hterm, hlen⟩
          cases k with
          | zero =>
            rw [flatten_take_one] at hterm
            rw [ht] at hterm
            exact absurd hterm (by simp)
          | succ j =>
            obtain ⟨_, h2, _⟩ := hcont 0 (by omega)
            rw [flatten_take_one] at h2
            rw [ht] at h2
            exact absurd h2 (by simp)
      · rw [if_neg ht]
        have htf : has_term (acc ++ c) = false := by
          revert ht; cases has_term (acc ++ c) <;> simp
        by_cases hl : 16 * 1024 < (acc ++ c).length
        · rw [if_pos hl]
          constructor
          · intro _
            refine ⟨0, by simp, fun j hj => absurd hj (by omega), by simpa using hcne, ?_, ?_⟩
            · rw [flatten_take_one]; exact htf
            · rw [flatten_take_one]; exact hl
          · intro _; rfl
        · rw [if_neg hl]
          rw [ih (acc ++ c)]
          constructor
          · rintro ⟨k, hk, hcont, hnil, hterm, hlen⟩
            refine ⟨k + 1, by simpa using hk,
              (reads_continue_shift acc c rest k hcne htf (by omega)).mpr hcont,
              by simpa using hnil, ?_, ?_⟩
            · rw [flatten_take_succ, ← List.append_assoc]
              exact hterm
            · rw [flatten_take_succ, ← List.append_assoc]
              exact hlen
          · rintro ⟨k, hk, hcont, hnil, hterm, hlen⟩
            cases k with
            | zero =>
              rw [flatten_take_one] at hterm hlen
              omega
            | succ j =>
              refine ⟨j, by simp at hk; omega,
                (reads_continue_shift acc c rest j hcne htf (by omega)).mp hcont,
                by simpa using hnil, ?_, ?_⟩
              · rw [flatten_take_succ, ← List.append_assoc] at hterm
                exact hterm
              · rw [flatten_take_succ, ← List.append_assoc] at hlen
                exact hlen

theorem connect_response_closed_iff (chunks : List (List Nat)) :
    connect_response chunks = .error .peer_closed ↔
      read_connect_response [] chunks = .peer_closed := by
  unfold connect_response
  cases hr : read_connect_response [] chunks <;> simp
  case done buf =>
    cases ht : term_end buf <;> simp
    case some n =>
      cases hp : parse_status_code buf <;> simp
      case some code =>
        by_cases hcode : code = 200 <;> simp [hcode]

theorem connect_response_large_iff (chunks : List (List Nat)) :
    connect_response chunks = .error .too_large ↔
      read_connect_response [] chunks = .too_large := by
  unfold connect_response
  cases hr : read_connect_response [] chunks <;> simp
  case done buf =>
    cases ht : term_end buf <;> simp
    case some n =>
      cases hp : parse_status_code buf <;> simp
      case some code =>
        by_cases hcode : code = 200 <;> simp [hcode]

/-- C6: reading the CONNECT response fails with the header-too-large error
exactly when the accumulated bytes exceed 16 KiB before the terminator has
appeared in them, and with the peer-closed error exactly when some read
returns zero bytes while every earlier read was non-empty and had neither
produced the terminator nor overflowed the bound. -/
theorem connect_read_errors (chunks : List (List Nat)) :
    (connect_response chunks = .error .peer_closed ↔
      ∃ k, k < chunks.length ∧ reads_continue [] chunks k ∧ chunks.getD k [] = []) ∧
    (connect_response chunks = .error .too_large ↔
      ∃ k, k < chunks.length ∧ reads_continue [] chunks k ∧ chunks.getD k [] ≠ [] ∧
        has_term ((chunks.take (k + 1)).flatten) = false ∧
        16 * 1024 < ((chunks.take (k + 1)).flatten).length) := by
  constructor
  · rw [connect_response_closed_iff, read_closed_iff]
  · rw [connect_response_large_iff, read_too_large_iff]
    simp

/-- C2 (amended): the connector builds exactly the CONNECT request of
the spec template, and on a 200 response the leftover value is exactly
the bytes received after the end of the header section (the first empty
line, LF- or CRLF-terminated; the first CRLFCRLF when all header lines
use CRLF), `none` when no byte was received past it. -/
theorem connect_request_and_leftover :
    (∀ ip port proxy, connect_req ip port proxy = connect_req_spec ip port proxy) ∧
    (∀ chunks lo, connect_response chunks = .ok lo →
      ∃ k buf n, k ≤ chunks.length ∧ buf = (chunks.take k).flatten ∧
        first_hdr_end buf n ∧
        ((lo = none ∧ buf.length ≤ n) ∨
          ∃ rest, lo = some rest ∧ rest ≠ [] ∧ rest = buf.drop n)) := by
  constructor
  · intro ip port proxy
    rfl
  · intro chunks lo h
    unfold connect_response at h
    cases hr : read_connect_response [] chunks
    case peer_closed => rw [hr] at h; exact absurd h (by simp)
    case too_large => rw [hr] at h; exact absurd h (by simp)
    case pending a => rw [hr] at h; exact absurd h (by simp)
    case done buf =>
      rw [hr] at h
      dsimp only at h
      cases ht : term_end buf
      case none => rw [ht] at h; exact absurd h (by simp)
      case some n =>
        rw [ht] at h
        dsimp only at h
        cases hp : parse_status_code buf
        case none => rw [hp] at h; exact absurd h (by simp)
        case some code =>
          rw [hp] at h
          dsimp only at h
          by_cases hcode : code = 200
          · rw [if_neg (by simpa using hcode)] at h
            obtain ⟨k, hk, hbuf, _⟩ := read_done_flatten chunks [] buf hr
            refine ⟨k, buf, n, hk, by simpa using hbuf, term_end_first_hdr buf n ht, ?_⟩
            have hlo : lo = if n < buf.length then some (buf.drop n) else none :=
              (Except.ok.inj h).symm
            by_cases hn : n < buf.length
            · rw [if_pos hn] at hlo
              refine Or.inr ⟨buf.drop n, hlo, ?_, rfl⟩
              intro hd
              rw [List.drop_eq_nil_iff] at hd
              omega
            · rw [if_neg hn] at hlo
              exact Or.inl ⟨hlo, by omega⟩
          · rw [if_pos (by simpa using hcode)] at h
            exact absurd h (by simp)

theorem connect_request_and_leftover_witness :
    ∃ k buf n,
      k ≤ ([str_bytes "HTTP/1.1 200 ok\r\n\r\nL"]).length ∧
      buf = (([str_bytes "HTTP/1.1 200 ok\r\n\r\nL"]).take k).flatten ∧
      first_hdr_end buf n ∧
      ((some (str_bytes "L") = none ∧ buf.length ≤ n) ∨
        ∃ rest, some (str_bytes "L") = some rest ∧ rest ≠ [] ∧ rest = buf.drop n) :=
  connect_request_and_leftover.2 [str_bytes "HTTP/1.1 200 ok\r\n\r\nL"]
    (some (str_bytes "L")) rfl

/-- C2 counterexample: the claim says leftover is every byte after the
first CRLFCRLF, but on a response whose status line ends the header
section with a bare-LF empty line the program returns everything after
that earlier empty line: here the first CRLFCRLF ends at byte 24 with
"rest" after it, yet the connector returns "ABC\r\n\r\nrest". -/
theorem connect_leftover_counterexample :
    connect_response [str_bytes "HTTP/1.1 200 ok\n\nABC\r\n\r\nrest"] =
      .ok (some (str_bytes "ABC\r\n\r\nrest")) ∧
    first_term_end (str_bytes "HTTP/1.1 200 ok\n\nABC\r\n\r\nrest") 24 ∧
    some (str_bytes "ABC\r\n\r\nrest") ≠
      some ((str_bytes "HTTP/1.1 200 ok\n\nABC\r\n\r\nrest").drop 24) :=
  ⟨rfl, by refine ⟨by decide, by decide, by decide, by decide⟩, by decide⟩

theorem mark_chain_rules_eq (cfg : MarkConfig) (table chain : String) :
    mark_chain_rules cfg table chain =
      .accept_non_tcp ::
        ((cfg.exclude_ips.filter Ip.is_ipv4).map
            (fun ip => MarkRule.accept_daddr (ip_render ip)) ++
          [.set_mark (hex_str cfg.mark)]) := by
  unfold mark_chain_rules build_commands
  have h1 : List.filterMap parse_rule_cmd
      ((cfg.exclude_ips.filter Ip.is_ipv4).map
        (fun ip => ["add", "rule", "inet", table, chain, "ip", "daddr", ip_render ip, "accept"])) =
      (cfg.exclude_ips.filter Ip.is_ipv4).map
        (fun ip => MarkRule.accept_daddr (ip_render ip)) := by
    rw [List.filterMap_map]
    exact List.filterMap_eq_map _ ▸ rfl
  have hd : parse_rule_cmd ["delete", "table", "inet", table] = none := rfl
  have ha : parse_rule_cmd ["add", "table", "inet", table] = none := rfl
  have hc : parse_rule_cmd ["add", "chain", "inet", table, chain, "\x7b", "type", "route",
      "hook", "output", "priority", "-150", ";", "policy", "accept", ";", "\x7d"] = none := rfl
  have hr1 : parse_rule_cmd ["add", "rule", "inet", table, chain,
      "meta", "l4proto", "!=", "tcp", "accept"] = some MarkRule.accept_non_tcp := rfl
  have hr2 : parse_rule_cmd ["add", "rule", "inet", table, chain,
      "meta", "l4proto", "tcp", "meta", "mark", "set", hex_str cfg.mark] =
      some (MarkRule.set_mark (hex_str cfg.mark)) := rfl
  simp only [List.nil_append, List.filterMap_append, List.filterMap_cons, List.filterMap_nil,
    hd, ha, hc, hr1, hr2, h1]
  simp

/-- C4: the mangle command list declares a type-route output-hook
priority -150 accept-policy chain, and its rules are in exactly the order
non-TCP-accept, one accept per excluded IPv4 destination, set-mark for
TCP; consequently under first-match evaluation a UDP packet is never
marked. -/
theorem mark_rules_order_and_udp :
    (∀ cfg table chain, mark_chain_rules cfg table chain =
      .accept_non_tcp ::
        ((cfg.exclude_ips.filter Ip.is_ipv4).map
            (fun ip => MarkRule.accept_daddr (ip_render ip)) ++
          [.set_mark (hex_str cfg.mark)])) ∧
    (∀ cfg table chain, (build_commands cfg table chain).take 3 =
      [["delete", "table", "inet", table],
       ["add", "table", "inet", table],
       ["add", "chain", "inet", table, chain, "\x7b", "type", "route", "hook", "output",
        "priority", "-150", ";", "policy", "accept", ";", "\x7d"]]) ∧
    (∀ cfg table chain daddr mark0,
      eval_mark_chain (mark_chain_rules cfg table chain)
          { l4proto := "udp", daddr := daddr, mark := mark0 } =
        { l4proto := "udp", daddr := daddr, mark := mark0 }) := by
  refine ⟨mark_chain_rules_eq, fun cfg table chain => rfl, fun cfg table chain daddr mark0 => ?_⟩
  rw [mark_chain_rules_eq]
  rw [eval_mark_chain]
  simp


theorem fw_cmds_mark_rule (cfg : FirewallConfigD) (table chain : String) :
    (fw_build_cmds cfg table chain).getD 5 [] =
      ["add", "rule", "inet", table, chain, "meta", "mark", hex_str cfg.proxy_mark,
       "accept"] := by
  simp only [fw_build_cmds, List.nil_append, List.append_assoc, List.cons_append,
    List.singleton_append, List.getD_cons_succ, List.getD_cons_zero]

/-- C1: the kill-switch mark-accept rule built by setup carries the
mangle mark 0x1, not the SO_MARK bypass constant 0x2 that the upstream
proxy sockets are stamped with; the two values differ, so a packet
marked with the proxy-socket SO_MARK does not match the kill-switch's
mark clause. -/
theorem killswitch_mark_mismatch :
    ∀ (tun : String) (proxy_ips dns_allow : List Ip) (port : Nat),
      ∃ fw, (setup_net_effects tun proxy_ips dns_allow port true).firewall = some fw ∧
        fw.proxy_mark = (setup_net_effects tun proxy_ips dns_allow port true).mark_apply_value ∧
        fw.proxy_mark = 1 ∧
        (setup_net_effects tun proxy_ips dns_allow port true).socket_mark =
          some PROXY_BYPASS_MARK ∧
        PROXY_BYPASS_MARK = 2 ∧
        fw.proxy_mark ≠ PROXY_BYPASS_MARK ∧
        (fw_build_cmds fw "proxyvpn" "output").getD 5 [] =
          ["add", "rule", "inet", "proxyvpn", "output", "meta", "mark", "0x1", "accept"] := by
  intro tun proxy_ips dns_allow port
  refine ⟨_, rfl, rfl, rfl, rfl, rfl, by simp [PROXY_BYPASS_MARK], ?_⟩
  rw [fw_cmds_mark_rule]
  have h1 : hex_str (1 : Nat) = "0x1" := by decide
  simp [h1]

theorem flow_init_inv : flow_inv flow_init := by
  refine ⟨fun _ => ⟨rfl, rfl, rfl⟩, fun _ => rfl, rfl⟩

theorem flow_step_inv (s : FlowState) (e : FlowEv) (h : flow_inv s) :
    flow_inv (flow_step s e) := by
  obtain ⟨hpre, hcon0, heq⟩ := h
  cases e with
  | arrive c =>
    by_cases hc : c.isEmpty
    · have hstep : flow_step s (.arrive c) = s := by simp [flow_step, hc]
      rw [hstep]; exact ⟨hpre, hcon0, heq⟩
    · by_cases hcn : s.connected
      · have hp : s.pending_to_proxy = [] := hcon0 hcn
        have hstep : flow_step s (.arrive c) =
            { s with channel := s.channel ++ [c], received := s.received ++ [c] } := by
          simp [flow_step, hc, hcn]
        rw [hstep]
        refine ⟨fun hx => absurd hx (by simp [hcn]), fun _ => hp, ?_⟩
        show s.written ++ s.task_pending ++ (s.channel ++ [c]) ++ s.pending_to_proxy =
          s.received ++ [c]
        rw [hp, ← heq, hp]
        simp
      · have hstep : flow_step s (.arrive c) =
            { s with pending_to_proxy := s.pending_to_proxy ++ [c],
                     received := s.received ++ [c] } := by
          simp [flow_step, hc, hcn]
        rw [hstep]
        refine ⟨fun hx => hpre hx, fun hx => absurd hx (by simpa using hcn), ?_⟩
        show s.written ++ s.task_pending ++ s.channel ++ (s.pending_to_proxy ++ [c]) =
          s.received ++ [c]
        rw [← heq]
        simp
  | estab =>
    by_cases hcn : s.connected
    · have hstep : flow_step s .estab = s := by simp [flow_step, hcn]
      rw [hstep]; exact ⟨hpre, hcon0, heq⟩
    · obtain ⟨ht, hch, hw⟩ := hpre (by simpa using hcn)
      have hstep : flow_step s .estab =
          { s with connected := true, task_pending := s.pending_to_proxy,
                   pending_to_proxy := [] } := by
        simp [flow_step, hcn]
      rw [hstep]
      refine ⟨fun hx => absurd hx (by simp), fun _ => rfl, ?_⟩
      show s.written ++ s.pending_to_proxy ++ s.channel ++ [] = s.received
      rw [← heq, ht, hch, hw]
      simp
  | task_write_pending =>
    cases htp : s.task_pending with
    | nil =>
      have hstep : flow_step s .task_write_pending = s := by simp [flow_step, htp]
      rw [hstep]; exact ⟨hpre, hcon0, heq⟩
    | cons c rest =>
      have hcn : s.connected = true := by
        by_contra hx
        have := (hpre (by simpa using hx)).1
        rw [htp] at this
        exact absurd this (by simp)
      have hstep : flow_step s .task_write_pending =
          { s with task_pending := rest, written := s.written ++ [c] } := by
        simp [flow_step, htp]
      rw [hstep]
      refine ⟨fun hx => absurd hx (by simp [hcn]), fun _ => hcon0 hcn, ?_⟩
      show s.written ++ [c] ++ rest ++ s.channel ++ s.pending_to_proxy = s.received
      rw [← heq, htp]
      simp
  | task_write_channel =>
    by_cases hg : s.connected = true ∧ s.task_pending = []
    · cases hch : s.channel with
      | nil =>
        have hstep : flow_step s .task_write_channel = s := by simp [flow_step, hg, hch]
        rw [hstep]; exact ⟨hpre, hcon0, heq⟩
      | cons c rest =>
        have hstep : flow_step s .task_write_channel =
            { s with channel := rest, written := s.written ++ [c] } := by
          simp [flow_step, hg, hch]
        rw [hstep]
        refine ⟨fun hx => absurd hx (by simp [hg.1]), fun _ => hcon0 hg.1, ?_⟩
        show s.written ++ [c] ++ s.task_pending ++ rest ++ s.pending_to_proxy = s.received
        rw [← heq, hg.2, hch]
        simp
    · have hstep : flow_step s .task_write_channel = s := by simp [flow_step, hg]
      rw [hstep]; exact ⟨hpre, hcon0, heq⟩

theorem flow_run_inv_aux (evs : List FlowEv) :
    ∀ s, flow_inv s → flow_inv (List.foldl flow_step s evs) := by
  induction evs with
  | nil => intro s h; simpa using h
  | cons e rest ih => intro s h; exact ih _ (flow_step_inv s e h)

/-- C3: for every interleaving of engine-socket receives, the spawn of
the upstream task, and the task's writes, the chunks written to the
upstream followed by the still-queued chunks (task queue drained before
the channel, then the un-swapped pending FIFO) equal the chunks received
from the application, in order; hence the bytes delivered upstream are a
prefix of the received bytes and equal them once the queues drain. -/
theorem flow_byte_ordering :
    ∀ evs : List FlowEv,
      ((flow_run evs).written ++ (flow_run evs).task_pending ++ (flow_run evs).channel ++
          (flow_run evs).pending_to_proxy = (flow_run evs).received) ∧
      (∃ queued, (flow_run evs).written ++ queued = (flow_run evs).received) ∧
      (((flow_run evs).written ++ (flow_run evs).task_pending ++ (flow_run evs).channel ++
          (flow_run evs).pending_to_proxy).flatten = (flow_run evs).received.flatten) := by
  intro evs
  have h3 := (flow_run_inv_aux evs flow_init flow_init_inv).2.2
  have h3r : (flow_run evs).written ++ (flow_run evs).task_pending ++ (flow_run evs).channel ++
      (flow_run evs).pending_to_proxy = (flow_run evs).received := h3
  refine ⟨h3r, ⟨(flow_run evs).task_pending ++ (flow_run evs).channel ++
    (flow_run evs).pending_to_proxy, ?_⟩, by rw [h3r]⟩
  rw [← h3r]
  simp

theorem sniff_syn_accepts_syn :
    sniff_syn [69, 0, 0, 40, 0, 0, 0, 0, 64, 6, 0, 0, 10, 0, 0, 2, 1, 2, 3, 4,
        48, 57, 1, 187, 0, 0, 0, 0, 0, 0, 0, 0, 80, 2, 0, 0, 0, 0, 0, 0] =
      some { src_ip := .v4 10 0 0 2, src_port := 12345,
             dst_ip := .v4 1 2 3 4, dst_port := 443 } := by decide

theorem sniff_syn_rejects_syn_ack :
    sniff_syn [69, 0, 0, 40, 0, 0, 0, 0, 64, 6, 0, 0, 10, 0, 0, 2, 1, 2, 3, 4,
        48, 57, 1, 187, 0, 0, 0, 0, 0, 0, 0, 0, 80, 18, 0, 0, 0, 0, 0, 0] = none := by decide

theorem find?_isSome_iff_mem (m : List (ConnKey × Nat)) (key : ConnKey) :
    (m.find? (fun p => p.1 == key)).isSome = true ↔ ∃ h, (key, h) ∈ m := by
  rw [List.find?_isSome]
  constructor
  · rintro ⟨p, hp, hpk⟩
    have : p.1 = key := by simpa using hpk
    exact ⟨p.2, by rw [← this]; exact hp⟩
  · rintro ⟨h, hm⟩
    exact ⟨(key, h), hm, by simp⟩

/-- C9 (amended): processing one arriving packet either returns an error
— exactly when the packet sniffs as a SYN whose key is vacant but the
listen on its destination endpoint fails (destination port 0), in which
case nothing is registered and the packet is not pushed — or succeeds,
preserving the one-flow-per-key invariant and pushing the packet into
the device rx FIFO; a new flow with a fresh engine-socket handle is
registered in both maps exactly when the packet sniffs as an IPv4+TCP
SYN-without-ACK whose key is vacant and whose destination port is
nonzero. -/
theorem tun_bridge_step :
    ∀ s bytes, stack_inv s →
      (∀ s2, process_packet s bytes = .ok s2 →
        stack_inv s2 ∧ s2.rx = s.rx ++ [bytes]) ∧
      (∀ key, sniff_syn bytes = some key →
        ((∃ h, (key, h) ∈ s.by_key) →
          process_packet s bytes = .ok { s with rx := s.rx ++ [bytes] }) ∧
        ((∀ h, (key, h) ∉ s.by_key) → key.dst_port ≠ 0 →
          process_packet s bytes =
            .ok { by_key := s.by_key ++ [(key, s.next_handle)]
                , conns := s.conns ++ [(s.next_handle, key)]
                , next_handle := s.next_handle + 1
                , rx := s.rx ++ [bytes] }) ∧
        ((∀ h, (key, h) ∉ s.by_key) → key.dst_port = 0 →
          process_packet s bytes = .error "failed to listen")) ∧
      (sniff_syn bytes = none →
        process_packet s bytes = .ok { s with rx := s.rx ++ [bytes] }) := by
  intro s bytes hinv
  obtain ⟨hnd, hconn, hbk, hck⟩ := hinv
  cases hs : sniff_syn bytes with
  | none =>
    have hstep : process_packet s bytes = .ok { s with rx := s.rx ++ [bytes] } := by
      unfold process_packet
      rw [hs]
    refine ⟨fun s2 h2 => ?_, fun key hk => absurd hk (by simp), fun _ => hstep⟩
    rw [hstep] at h2
    have hs2 : s2 = { s with rx := s.rx ++ [bytes] } := (Except.ok.inj h2).symm
    subst hs2
    exact ⟨⟨hnd, hconn, hbk, hck⟩, rfl⟩
  | some key =>
    by_cases hf : (s.by_key.find? (fun p => p.1 == key)).isSome = true
    · have hstep : process_packet s bytes = .ok { s with rx := s.rx ++ [bytes] } := by
        unfold process_packet
        rw [hs]
        dsimp only
        rw [if_pos hf]
      refine ⟨fun s2 h2 => ?_, fun key2 hk2 => ?_, fun hn => absurd hn (by simp)⟩
      · rw [hstep] at h2
        have hs2 : s2 = { s with rx := s.rx ++ [bytes] } := (Except.ok.inj h2).symm
        subst hs2
        exact ⟨⟨hnd, hconn, hbk, hck⟩, rfl⟩
      · have hkey : key2 = key := (Option.some.inj hk2).symm
        subst hkey
        obtain ⟨h, hm⟩ := (find?_isSome_iff_mem s.by_key key2).mp hf
        exact ⟨fun _ => hstep, fun habs _ => absurd hm (habs h),
          fun habs _ => absurd hm (habs h)⟩
    · have hknotin : ∀ h, (key, h) ∉ s.by_key := by
        intro h hm
        exact hf ((find?_isSome_iff_mem s.by_key key).mpr ⟨h, hm⟩)
      by_cases hp0 : key.dst_port = 0
      · have hstep : process_packet s bytes = .error "failed to listen" := by
          unfold process_packet
          rw [hs]
          dsimp only
          rw [if_neg hf, if_pos hp0]
        refine ⟨fun s2 h2 => absurd (hstep ▸ h2) (by simp),
          fun key2 hk2 => ?_, fun hn => absurd hn (by simp)⟩
        have hkey : key2 = key := (Option.some.inj hk2).symm
        subst hkey
        exact ⟨fun ⟨h, hm⟩ => absurd hm (hknotin h), fun _ hne => absurd hp0 hne,
          fun _ _ => hstep⟩
      · have hstep : process_packet s bytes =
            .ok { by_key := s.by_key ++ [(key, s.next_handle)]
                , conns := s.conns ++ [(s.next_handle, key)]
                , next_handle := s.next_handle + 1
                , rx := s.rx ++ [bytes] } := by
          unfold process_packet
          rw [hs]
          dsimp only
          rw [if_neg hf, if_neg hp0]
        refine ⟨fun s2 h2 => ?_, fun key2 hk2 => ?_, fun hn => absurd hn (by simp)⟩
        · rw [hstep] at h2
          have hs2 := (Except.ok.inj h2).symm
          subst hs2
          refine ⟨⟨?_, ?_, ?_, ?_⟩, rfl⟩
          · rw [List.map_append]
            rw [List.nodup_append]
            refine ⟨hnd, by simp, ?_⟩
            intro a ha hb
            simp at hb
            subst hb
            simp only [List.mem_map] at ha
            obtain ⟨p, hp, hpk⟩ := ha
            refine hknotin p.2 ?_
            rw [← hpk]
            simpa using hp
          · intro p hp
            rcases List.mem_append.mp hp with hp1 | hp2
            · obtain ⟨q, hq, hqe⟩ := hconn p hp1
              exact ⟨q, List.mem_append_left _ hq, hqe⟩
            · simp at hp2
              subst hp2
              exact ⟨(s.next_handle, key), by simp, rfl⟩
          · intro p hp
            show p.2 < s.next_handle + 1
            rcases List.mem_append.mp hp with hp1 | hp2
            · have := hbk p hp1
              omega
            · simp at hp2
              subst hp2
              simp
          · intro q hq
            show q.1 < s.next_handle + 1
            rcases List.mem_append.mp hq with hq1 | hq2
            · have := hck q hq1
              omega
            · simp at hq2
              subst hq2
              simp
        · have hkey : key2 = key := (Option.some.inj hk2).symm
          subst hkey
          exact ⟨fun ⟨h, hm⟩ => absurd hm (hknotin h), fun _ _ => hstep,
            fun _ hz => absurd hz hp0⟩

theorem tun_bridge_step_witness :
    process_packet { by_key := [], conns := [], next_handle := 0, rx := [] }
        [69, 0, 0, 40, 0, 0, 0, 0, 64, 6, 0, 0, 10, 0, 0, 2, 1, 2, 3, 4,
         48, 57, 1, 187, 0, 0, 0, 0, 0, 0, 0, 0, 80, 2, 0, 0, 0, 0, 0, 0] =
      .ok { by_key := [({ src_ip := .v4 10 0 0 2, src_port := 12345,
                          dst_ip := .v4 1 2 3 4, dst_port := 443 }, 0)]
          , conns := [(0, { src_ip := .v4 10 0 0 2, src_port := 12345,
                            dst_ip := .v4 1 2 3 4, dst_port := 443 })]
          , next_handle := 1
          , rx := [[69, 0, 0, 40, 0, 0, 0, 0, 64, 6, 0, 0, 10, 0, 0, 2, 1, 2, 3, 4,
                    48, 57, 1, 187, 0, 0, 0, 0, 0, 0, 0, 0, 80, 2, 0, 0, 0, 0, 0, 0]] } :=
  (((tun_bridge_step { by_key := [], conns := [], next_handle := 0, rx := [] }
      [69, 0, 0, 40, 0, 0, 0, 0, 64, 6, 0, 0, 10, 0, 0, 2, 1, 2, 3, 4,
       48, 57, 1, 187, 0, 0, 0, 0, 0, 0, 0, 0, 80, 2, 0, 0, 0, 0, 0, 0]
      (by refine ⟨by simp, by simp, by simp, by simp⟩)).2.1
    { src_ip := .v4 10 0 0 2, src_port := 12345, dst_ip := .v4 1 2 3 4, dst_port := 443 }
    (by decide)).2.1 (by simp) (by decide))

/-- C9 counterexample: a SYN to destination port 0 sniffs to a key that
is vacant in the empty state, yet the program registers nothing and does
not push the packet to rx: `create_socket` fails (smoltcp listen on port
0) and the loop aborts with an error, contradicting the claim's
"registered if and only if SYN and vacant" and "pushed regardless". -/
theorem tun_bridge_port_zero_counterexample :
    sniff_syn [69, 0, 0, 40, 0, 0, 0, 0, 64, 6, 0, 0, 10, 0, 0, 2, 1, 2, 3, 4,
        48, 57, 0, 0, 0, 0, 0, 0, 0, 0, 0, 0, 80, 2, 0, 0, 0, 0, 0, 0] =
      some { src_ip := .v4 10 0 0 2, src_port := 12345,
             dst_ip := .v4 1 2 3 4, dst_port := 0 } ∧
    process_packet { by_key := [], conns := [], next_handle := 0, rx := [] }
        [69, 0, 0, 40, 0, 0, 0, 0, 64, 6, 0, 0, 10, 0, 0, 2, 1, 2, 3, 4,
         48, 57, 0, 0, 0, 0, 0, 0, 0, 0, 0, 0, 80, 2, 0, 0, 0, 0, 0, 0] =
      .error "failed to listen" := by
  exact ⟨by decide, rfl⟩

end ProxyVpn
